import Mathlib

/-!
Verification of the YNAB-AutoReceipt image-region editor.

This file gives a shallow embedding, in Lean, of the geometry editor
(`src/js/modal.js`), the compositor and chunker (`src/js/image.js`,
`src/js/app.js`), the content-bounds detector (`src/js/image.js`) and the
date normalizer (`src/app.js`), and proves properties of those embeddings.

Coordinates are embedded as rationals (`ℚ`): the JavaScript source performs
only additions, subtractions, multiplications, divisions, `Math.min`,
`Math.max` and comparisons on them, all of which are exact on the inputs we
quantify over.  Pixel buffers are flat `List ℕ` RGBA samples, as in an
`ImageData` object, and JavaScript strings are `List Char`.
-/

namespace AutoReceipt

/-- Crop rectangle in original-image pixel space, `{top,left,bottom,right}`
form (the shape used for the crop box in `modal.js`). -/
@[ext] structure CropBox where
  top : ℚ
  left : ℚ
  bottom : ℚ
  right : ℚ
deriving DecidableEq, Repr

/-- Redaction rectangle in original-image pixel space, `{x,y,w,h}` form
(the shape used for redaction boxes in `modal.js`). -/
@[ext] structure Redaction where
  x : ℚ
  y : ℚ
  w : ℚ
  h : ℚ
deriving DecidableEq, Repr

/-- A crop box lies fully inside the `[0,maxW] × [0,maxH]` image extent. -/
def CropBox.inBounds (r : CropBox) (maxW maxH : ℚ) : Prop :=
  0 ≤ r.left ∧ r.right ≤ maxW ∧ 0 ≤ r.top ∧ r.bottom ≤ maxH

/-- A redaction box lies fully inside the `[0,maxW] × [0,maxH]` image extent. -/
def Redaction.inBounds (q : Redaction) (maxW maxH : ℚ) : Prop :=
  0 ≤ q.x ∧ q.x + q.w ≤ maxW ∧ 0 ≤ q.y ∧ q.y + q.h ≤ maxH

instance (r : CropBox) (maxW maxH : ℚ) : Decidable (r.inBounds maxW maxH) := by
  unfold CropBox.inBounds; infer_instance

instance (q : Redaction) (maxW maxH : ℚ) : Decidable (q.inBounds maxW maxH) := by
  unfold Redaction.inBounds; infer_instance

/-- One of the eight resize handles of a box (`modal.js` handle list
`['nw','n','ne','e','se','s','sw','w']`). -/
inductive Handle where
  | n | ne | e | se | s | sw | w | nw
deriving DecidableEq, Repr

/-- JavaScript `activeHandle.includes('n')`. -/
def Handle.hasN : Handle → Bool
  | .n | .ne | .nw => true
  | _ => false

/-- JavaScript `activeHandle.includes('s')`. -/
def Handle.hasS : Handle → Bool
  | .s | .se | .sw => true
  | _ => false

/-- JavaScript `activeHandle.includes('w')`. -/
def Handle.hasW : Handle → Bool
  | .w | .nw | .sw => true
  | _ => false

/-- JavaScript `activeHandle.includes('e')`. -/
def Handle.hasE : Handle → Bool
  | .e | .ne | .se => true
  | _ => false

/-- The `'left' in rectObj` move branch of `updateRect` (`modal.js`
lines 202-217): translate a crop box by an image-space delta, clamped so the
box stays inside `[0,maxW] × [0,maxH]`, preserving its size. -/
def moveCropRect (r : CropBox) (dx dy maxW maxH : ℚ) : CropBox :=
  let width := r.right - r.left
  let height := r.bottom - r.top
  let newL := max 0 (min (r.left + dx) (maxW - width))
  let newT := max 0 (min (r.top + dy) (maxH - height))
  { left := newL, top := newT, right := newL + width, bottom := newT + height }

/-- The redaction move branch of `updateRect` (`modal.js` lines 218-227). -/
def moveRedactionRect (q : Redaction) (dx dy maxW maxH : ℚ) : Redaction :=
  { q with
    x := max 0 (min (q.x + dx) (maxW - q.w)),
    y := max 0 (min (q.y + dy) (maxH - q.h)) }

/-- The crop resize branch of `updateRect` (`modal.js` lines 235-246):
each edge named by the handle moves by the delta but is refused past the
opposite edge minus the 10px minimum, then all four edges are clamped to the
image bounds.  The `let`s mirror the sequential JavaScript assignments. -/
def resizeCropRect (h : Handle) (r : CropBox) (dx dy maxW maxH : ℚ) : CropBox :=
  let top1 := if h.hasN then min (r.top + dy) (r.bottom - 10) else r.top
  let bottom1 := if h.hasS then max (r.bottom + dy) (top1 + 10) else r.bottom
  let left1 := if h.hasW then min (r.left + dx) (r.right - 10) else r.left
  let right1 := if h.hasE then max (r.right + dx) (left1 + 10) else r.right
  { top := max 0 top1, left := max 0 left1,
    right := min maxW right1, bottom := min maxH bottom1 }

/-- The redaction resize branch of `updateRect` (`modal.js` lines 247-265).
The source takes `maxW`/`maxH` but, unlike the crop branch, never clamps the
resized redaction to them; each branch mutates `{x,y,w,h}` sequentially. -/
def resizeRedactionRect (h : Handle) (q : Redaction) (dx dy maxW maxH : ℚ) :
    Redaction :=
  let _ := maxW
  let _ := maxH
  let q1 := if h.hasN then
      let oldBottom := q.y + q.h
      let newY := min (q.y + dy) (oldBottom - 10)
      { q with y := newY, h := oldBottom - newY }
    else q
  let q2 := if h.hasS then { q1 with h := max (q1.h + dy) 10 } else q1
  let q3 := if h.hasW then
      let oldRight := q2.x + q2.w
      let newX := min (q2.x + dx) (oldRight - 10)
      { q2 with x := newX, w := oldRight - newX }
    else q2
  if h.hasE then { q3 with w := max (q3.w + dx) 10 } else q3

/-- Output of the compositor `applyAdjustments` (`src/js/app.js` lines
166-216): a canvas whose size is set from the crop rectangle (or the full
image when the crop is null), holding the solid-black fill calls made for
the redactions, each translated by the crop's top-left offset. -/
structure Canvas where
  width : ℚ
  height : ℚ
  fills : List (ℚ × ℚ × ℚ × ℚ)
deriving DecidableEq, Repr

/-- The compositor `applyAdjustments` (`src/js/app.js` lines 166-216),
up to raster encoding: sizes the canvas to the crop (falling back to the
full image), then records one `fillRect` per redaction shifted by
`(-sx, -sy)`. -/
def applyAdjustments (imgW imgH : ℚ) (bounds : Option CropBox)
    (redactions : List Redaction) : Canvas :=
  let sx := match bounds with | some b => b.left | none => 0
  let sy := match bounds with | some b => b.top | none => 0
  let sw := match bounds with | some b => b.right - b.left | none => imgW
  let sh := match bounds with | some b => b.bottom - b.top | none => imgH
  { width := sw, height := sh,
    fills := redactions.map (fun r => (r.x - sx, r.y - sy, r.w, r.h)) }

/-- The draw-new-redaction commit in the `mouseup` listener (`modal.js`
lines 148-193): the drag from `(startX, startY)` to `(endX, endY)` in client
coordinates is converted into image space and appended to the redaction
list only when its absolute display width and height both exceed 5px. -/
def commitDrawnRedaction (startX startY endX endY rectLeft rectTop
    scaleX scaleY : ℚ) (redactions : List Redaction) : List Redaction :=
  let x := min startX endX - rectLeft
  let y := min startY endY - rectTop
  let w := |endX - startX|
  let h := |endY - startY|
  if 5 < w ∧ 5 < h then
    redactions ++ [{ x := x * scaleX, y := y * scaleY,
                     w := w * scaleX, h := h * scaleY }]
  else
    redactions

/-- The `numChunks` choice of `createVerticalChunks` (`image.js` line 61):
3 chunks above the steeper 3.2 ratio threshold, else 2. -/
def chunkCount (aspect : ℚ) : ℕ := if aspect > 16 / 5 then 3 else 2

/-- The `chunkHeight` of `createVerticalChunks` (`image.js` line 63):
`canvas.height / (numChunks - (numChunks - 1) * overlap)` with a fixed
15% overlap. -/
def chunkHeightFor (hgt : ℚ) (n : ℕ) : ℚ :=
  hgt / ((n : ℚ) - ((n : ℚ) - 1) * (3 / 20))

/-- The chunk geometry of `createVerticalChunks` (`image.js` lines 60-81):
each chunk `i` starts at `i * step` and has height
`min(chunkHeight, height - yStart)`. -/
def verticalChunks (hgt aspect : ℚ) : List (ℚ × ℚ) :=
  let n := chunkCount aspect
  let ch := chunkHeightFor hgt n
  let step := ch * (1 - 3 / 20)
  (List.range n).map (fun i => ((i : ℚ) * step, min ch (hgt - (i : ℚ) * step)))

/-- The chunking decision shared by `optimizeImageForAI` (`image.js` lines
40-45) and `applyAdjustments` (`src/js/app.js` lines 205-210): split only
when `height / width > 1.8`, else the whole buffer is the sole chunk. -/
def chunksFor (wdt hgt : ℚ) : List (ℚ × ℚ) :=
  if hgt / wdt > 9 / 5 then verticalChunks hgt (hgt / wdt) else [(0, hgt)]

/-- Decoded pixel buffer handed to `findContentBounds` (`image.js` lines
83-159): dimensions plus the flat RGBA sample array of an `ImageData`. -/
structure ImageData where
  width : ℕ
  height : ℕ
  data : List ℕ

/-- The `isContent` helper (`image.js` lines 89-96): a pixel is content when
any of its R/G/B channels is below 235.  An out-of-range read yields
`undefined` in JavaScript, for which every `< 235` comparison is false; the
out-of-range default 255 models exactly that. -/
def isContent (img : ImageData) (x y : ℕ) : Bool :=
  decide (img.data.getD ((y * img.width + x) * 4) 255 < 235) ||
  decide (img.data.getD ((y * img.width + x) * 4 + 1) 255 < 235) ||
  decide (img.data.getD ((y * img.width + x) * 4 + 2) 255 < 235)

/-- The inner loop of the row scans (`image.js` lines 99-111): does row `y`
contain a content pixel? -/
def rowHasContent (img : ImageData) (y : ℕ) : Bool :=
  (List.range img.width).any (fun x => isContent img x y)

/-- The inner loop of the column scans (`image.js` lines 128-156): does
column `x` contain a content pixel in rows `top..bottom` inclusive? -/
def colHasContent (img : ImageData) (top bottom x : ℕ) : Bool :=
  (List.range (bottom + 1 - top)).any (fun k => isContent img x (top + k))

/-- The `{top,bottom,left,right}` record returned by `findContentBounds`. -/
structure Bounds where
  top : ℕ
  bottom : ℕ
  left : ℕ
  right : ℕ
deriving DecidableEq, Repr

/-- An ascending scan loop (`for (v = 0; v < n; v++) { if (p v) break }`):
the first index satisfying `p`, or the initial value 0. -/
def scanLow (p : ℕ → Bool) (n : ℕ) : ℕ := ((List.range n).find? p).getD 0

/-- A descending scan loop (`for (v = n-1; v >= a; v--) { if (p v) break }`):
the first index from `n-1` down to `a` satisfying `p`, or the initial
value `n`. -/
def scanHigh (p : ℕ → Bool) (n a : ℕ) : ℕ :=
  (((List.range (n - a)).map (fun k => n - 1 - k)).find? p).getD n

/-- The content-bounds detector `findContentBounds` (`image.js` lines
83-159): top scan over all rows, bottom scan from the last row down to
`top`, then left/right scans over columns restricted to rows
`top..bottom`. -/
def findContentBounds (img : ImageData) : Bounds :=
  let top := scanLow (rowHasContent img) img.height
  let bottom := scanHigh (rowHasContent img) img.height top
  let left := scanLow (colHasContent img top bottom) img.width
  let right := scanHigh (colHasContent img top bottom) img.width left
  ⟨top, bottom, left, right⟩

/-- Drag state of the global `mousemove` listener during a crop move
(`modal.js` lines 83-146): the pointer anchor `(startX, startY)` and the
crop box being edited. -/
structure DragState where
  anchorX : ℚ
  anchorY : ℚ
  rect : CropBox
deriving DecidableEq, Repr

/-- One `mousemove` event of a crop move (`modal.js` lines 83-105 and
142-145): the delta from the anchor is scaled into image space and applied,
then the anchor is reset to the event's pointer position (lines 143-144). -/
def mousemoveStep (sX sY maxW maxH : ℚ) (st : DragState)
    (e : ℚ × ℚ) : DragState :=
  { anchorX := e.1, anchorY := e.2,
    rect := moveCropRect st.rect ((e.1 - st.anchorX) * sX)
      ((e.2 - st.anchorY) * sY) maxW maxH }

/-- A whole drag: the fold of the `mousemove` events received since
pointer-down (`startBoxInteraction` sets the initial anchor, `modal.js`
lines 54-80). -/
def dragMoveEvents (sX sY maxW maxH : ℚ) (st : DragState)
    (events : List (ℚ × ℚ)) : DragState :=
  events.foldl (mousemoveStep sX sY maxW maxH) st

/-- Modelled from the spec: "a snapshot of the target Rectangle at
drag-start (used as the basis for delta application rather than
accumulating rounding error across mouse-move events)" — the rectangle
after a drag equals the drag-start snapshot moved once by the total pointer
delta.  (The monolithic `src/app.js` lines 959-990 implement this via
`initialBoxRect` and a fixed `dragStartX/Y`; `src/js/modal.js` does not.) -/
def specMoveFromSnapshot (sX sY maxW maxH : ℚ) (snap : CropBox)
    (start cur : ℚ × ℚ) : CropBox :=
  moveCropRect snap ((cur.1 - start.1) * sX) ((cur.2 - start.2) * sY)
    maxW maxH

/-- JavaScript whitespace test backing `String.prototype.trim` (restricted
to the whitespace characters this code can meet). -/
def isJsSpace (c : Char) : Bool :=
  c == ' ' || c == '\t' || c == '\n' || c == '\r'

/-- JavaScript `p.trim()` on a list of characters. -/
def jsTrim (s : List Char) : List Char :=
  ((s.dropWhile isJsSpace).reverse.dropWhile isJsSpace).reverse

/-- One character of `dateStr.replace(/[年月日\/\.]/g, '-')`
(`src/app.js` line 396). -/
def sepToDash (c : Char) : Char :=
  if c = '年' ∨ c = '月' ∨ c = '日' ∨ c = '/' ∨ c = '.' then '-' else c

/-- The trailing-dash removal step (`src/app.js` line 398): remove one
trailing dash when present. -/
def dropTrailingDash (s : List Char) : List Char :=
  if s.getLast? = some '-' then s.dropLast else s

/-- JavaScript `clean.split('-')`: adjacent separators produce empty
parts. -/
def splitOnDash : List Char → List (List Char)
  | [] => [[]]
  | c :: rest =>
    match splitOnDash rest with
    | [] => []
    | g :: gs => if c = '-' then [] :: g :: gs else (c :: g) :: gs

/-- JavaScript `s.padStart(2, '0')` (`src/app.js` lines 404-405). -/
def padStart2 (s : List Char) : List Char :=
  if s.length < 2 then List.replicate (2 - s.length) '0' ++ s else s

/-- Numeric value of a digit string. -/
def natOfDigits (s : List Char) : ℕ :=
  s.foldl (fun a c => 10 * a + (c.toNat - 48)) 0

/-- Gregorian leap-year rule, as used by the host date parser. -/
def isLeapYear (y : ℕ) : Bool :=
  (y % 4 == 0 && y % 100 != 0) || y % 400 == 0

/-- Days in a month of the proleptic Gregorian calendar. -/
def daysInMonth (y m : ℕ) : ℕ :=
  if m = 2 then (if isLeapYear y then 29 else 28)
  else if m = 4 ∨ m = 6 ∨ m = 9 ∨ m = 11 then 30 else 31

/-- Modelled from the spec: the calendar validation the source delegates to
the host `Date.parse` on the reconstructed string ("discarding the result
entirely (empty string) if the reconstructed date fails calendar
validation").  A string passes when it is a dashed 4-2-2-digit date whose
month and day are in calendar range. -/
def dateParseValid (s : List Char) : Bool :=
  match splitOnDash s with
  | [y, m, d] =>
    y.length == 4 && m.length == 2 && d.length == 2 &&
    (y ++ m ++ d).all Char.isDigit &&
    decide (1 ≤ natOfDigits m) && decide (natOfDigits m ≤ 12) &&
    decide (1 ≤ natOfDigits d) &&
    decide (natOfDigits d ≤ daysInMonth (natOfDigits y) (natOfDigits m))
  | _ => false

/-- The date normalizer `normalizeDate` (`src/app.js` lines 392-416):
replace separators by dashes, drop one trailing dash, split on dashes and
drop whitespace-only parts; with at least three parts, take the FIRST part
as year (prefixing `20` when it has two characters), the second and third
as month and day zero-padded to two digits, and return the reconstructed
`YYYY-MM-DD` only when it passes date validation, else the empty string. -/
def normalizeDate (dateStr : List Char) : List Char :=
  if dateStr = [] then [] else
  let clean := dateStr.map sepToDash
  let clean2 := dropTrailingDash clean
  let parts := (splitOnDash clean2).filter (fun p => decide (jsTrim p ≠ []))
  if 3 ≤ parts.length then
    let y0 := parts.getD 0 []
    let m := padStart2 (parts.getD 1 [])
    let d := padStart2 (parts.getD 2 [])
    let y := if y0.length = 2 then '2' :: '0' :: y0 else y0
    let iso := y ++ '-' :: m ++ '-' :: d
    if dateParseValid iso then iso else []
  else []

/-- Modelled from the spec: "locating a 4-digit year token anywhere in the
parsed parts rather than assuming position" — the year is the 4-character
part wherever it occurs, month and day are the remaining parts in order,
zero-padded; two-digit years are prefixed with `20` when no 4-digit part
exists; the result is discarded on failed calendar validation. -/
def specNormalizeDate (dateStr : List Char) : List Char :=
  if dateStr = [] then [] else
  let clean2 := dropTrailingDash (dateStr.map sepToDash)
  let parts := (splitOnDash clean2).filter (fun p => decide (jsTrim p ≠ []))
  if 3 ≤ parts.length then
    match parts.find? (fun p => p.length == 4) with
    | some y =>
      let rest := parts.filter (fun p => p.length != 4)
      let m := padStart2 (rest.getD 0 [])
      let d := padStart2 (rest.getD 1 [])
      let iso := y ++ '-' :: m ++ '-' :: d
      if dateParseValid iso then iso else []
    | none =>
      let y0 := parts.getD 0 []
      let m := padStart2 (parts.getD 1 [])
      let d := padStart2 (parts.getD 2 [])
      let y := if y0.length = 2 then '2' :: '0' :: y0 else y0
      let iso := y ++ '-' :: m ++ '-' :: d
      if dateParseValid iso then iso else []
  else []

/-! ### Resize: bounds and minimum-size analysis -/

/-- One axis of the crop resize branch: the low edge (moved when `bL`) is
refused past `hi - 10`, the high edge (moved when `bH`) past `lo1 + 10`,
then both are clamped to `[0, mx]`.  No handle moves both edges of an axis. -/
theorem resizeAxisBounds (bL bH : Bool) (hx : bL = false ∨ bH = false)
    (lo hi mx d : ℚ) (h0 : 0 ≤ lo) (hm : hi ≤ mx) (hd : 10 ≤ hi - lo) :
    0 ≤ max 0 (if bL then min (lo + d) (hi - 10) else lo) ∧
    min mx (if bH then max (hi + d)
      ((if bL then min (lo + d) (hi - 10) else lo) + 10) else hi) ≤ mx ∧
    10 ≤ min mx (if bH then max (hi + d)
      ((if bL then min (lo + d) (hi - 10) else lo) + 10) else hi)
        - max 0 (if bL then min (lo + d) (hi - 10) else lo) := by
  refine ⟨le_max_left _ _, min_le_left _ _, ?_⟩
  rcases hx with hx | hx
  · simp only [hx, Bool.false_eq_true, if_false]
    rw [max_eq_right h0]
    cases bH with
    | false =>
      simp only [Bool.false_eq_true, if_false]
      rw [min_eq_right hm]; linarith
    | true =>
      simp only [if_true]
      have h1 : lo + 10 ≤ mx := by linarith
      have h2 : lo + 10 ≤ max (hi + d) (lo + 10) := le_max_right _ _
      have h3 : lo + 10 ≤ min mx (max (hi + d) (lo + 10)) := le_min h1 h2
      linarith
  · simp only [hx, Bool.false_eq_true, if_false]
    rw [min_eq_right hm]
    cases bL with
    | false =>
      simp only [Bool.false_eq_true, if_false]
      rw [max_eq_right h0]; linarith
    | true =>
      simp only [if_true]
      have h1 : min (lo + d) (hi - 10) ≤ hi - 10 := min_le_right _ _
      have h2 : max 0 (min (lo + d) (hi - 10)) ≤ hi - 10 :=
        max_le (by linarith) h1
      linarith

/-- No resize handle names both n and s. -/
theorem Handle.hasN_false_or_hasS_false (h : Handle) :
    h.hasN = false ∨ h.hasS = false := by
  cases h <;> simp [Handle.hasN, Handle.hasS]

/-- No resize handle names both w and e. -/
theorem Handle.hasW_false_or_hasE_false (h : Handle) :
    h.hasW = false ∨ h.hasE = false := by
  cases h <;> simp [Handle.hasW, Handle.hasE]

/-- C1 (counterexample): the claim fails for redaction boxes.  A 10×10
redaction at the origin of a 20×20 image is fully inside the image bounds,
yet a single e-handle resize by `dx = 100` leaves it with `x + w = 110`,
outside the image: the redaction resize branch of `updateRect` never clamps
to image bounds. -/
theorem C1_counterexample :
    Redaction.inBounds ⟨0, 0, 10, 10⟩ 20 20 ∧
    ¬ Redaction.inBounds
        (resizeRedactionRect .e ⟨0, 0, 10, 10⟩ 100 0 20 20) 20 20 := by
  have hres : resizeRedactionRect .e ⟨0, 0, 10, 10⟩ 100 0 20 20
      = ⟨0, 0, 110, 10⟩ := by
    simp only [resizeRedactionRect, Handle.hasN, Handle.hasS, Handle.hasW,
      Handle.hasE, Bool.false_eq_true, if_false, if_true]
    rw [max_eq_left (by norm_num : (10 : ℚ) ≤ 10 + 100)]
    norm_num
  constructor
  · exact ⟨le_refl 0, by norm_num, le_refl 0, by norm_num⟩
  · rw [hres]
    rintro ⟨-, hcontra, -, -⟩
    norm_num at hcontra

/-- C1 (amended): for every crop box fully inside the image bounds whose
width and height are both at least the 10px minimum, a single resize step
via any handle keeps the crop box fully inside `[0,maxW] × [0,maxH]` and
keeps both dimensions at least 10: each moved edge is refused past
(opposite edge ∓ 10) and all four crop edges are clamped to image bounds.
(Resized redaction boxes are not clamped to image bounds; see the
counterexample.) -/
theorem C1_crop_resize_in_bounds (h : Handle) (r : CropBox)
    (dx dy maxW maxH : ℚ) (hin : r.inBounds maxW maxH)
    (hw : 10 ≤ r.right - r.left) (hh : 10 ≤ r.bottom - r.top) :
    (resizeCropRect h r dx dy maxW maxH).inBounds maxW maxH ∧
    10 ≤ (resizeCropRect h r dx dy maxW maxH).right
        - (resizeCropRect h r dx dy maxW maxH).left ∧
    10 ≤ (resizeCropRect h r dx dy maxW maxH).bottom
        - (resizeCropRect h r dx dy maxW maxH).top := by
  obtain ⟨hL, hR, hT, hB⟩ := hin
  have hv := resizeAxisBounds h.hasN h.hasS (h.hasN_false_or_hasS_false)
    r.top r.bottom maxH dy hT hB hh
  have hhz := resizeAxisBounds h.hasW h.hasE (h.hasW_false_or_hasE_false)
    r.left r.right maxW dx hL hR hw
  simp only [resizeCropRect, CropBox.inBounds]
  exact ⟨⟨hhz.1, hhz.2.1, hv.1, hv.2.1⟩, hhz.2.2, hv.2.2⟩

/-- Witness for `C1_crop_resize_in_bounds` at a concrete input. -/
theorem C1_crop_resize_in_bounds_witness :
    (resizeCropRect .n ⟨0, 0, 20, 20⟩ 0 5 20 20).inBounds 20 20 :=
  (C1_crop_resize_in_bounds .n ⟨0, 0, 20, 20⟩ 0 5 20 20
    (by norm_num [CropBox.inBounds]) (by norm_num) (by norm_num)).1

/-! ### Resize: frame effect of each handle -/

/-- The crop top edge is untouched by handles without n. -/
theorem resizeCropRect_top_eq (h : Handle) (hn : h.hasN = false)
    (r : CropBox) (dx dy maxW maxH : ℚ) (hT : 0 ≤ r.top) :
    (resizeCropRect h r dx dy maxW maxH).top = r.top := by
  simp only [resizeCropRect, hn, Bool.false_eq_true, if_false]
  exact max_eq_right hT

/-- The crop bottom edge is untouched by handles without s. -/
theorem resizeCropRect_bottom_eq (h : Handle) (hs : h.hasS = false)
    (r : CropBox) (dx dy maxW maxH : ℚ) (hB : r.bottom ≤ maxH) :
    (resizeCropRect h r dx dy maxW maxH).bottom = r.bottom := by
  simp only [resizeCropRect, hs, Bool.false_eq_true, if_false]
  exact min_eq_right hB

/-- The crop left edge is untouched by handles without w. -/
theorem resizeCropRect_left_eq (h : Handle) (hw : h.hasW = false)
    (r : CropBox) (dx dy maxW maxH : ℚ) (hL : 0 ≤ r.left) :
    (resizeCropRect h r dx dy maxW maxH).left = r.left := by
  simp only [resizeCropRect, hw, Bool.false_eq_true, if_false]
  exact max_eq_right hL

/-- The crop right edge is untouched by handles without e. -/
theorem resizeCropRect_right_eq (h : Handle) (he : h.hasE = false)
    (r : CropBox) (dx dy maxW maxH : ℚ) (hR : r.right ≤ maxW) :
    (resizeCropRect h r dx dy maxW maxH).right = r.right := by
  simp only [resizeCropRect, he, Bool.false_eq_true, if_false]
  exact min_eq_right hR

/-- The redaction top edge is untouched by handles without n. -/
theorem resizeRedactionRect_top_eq (h : Handle) (hn : h.hasN = false)
    (q : Redaction) (dx dy maxW maxH : ℚ) :
    (resizeRedactionRect h q dx dy maxW maxH).y = q.y := by
  simp only [resizeRedactionRect, hn, Bool.false_eq_true, if_false]
  cases hS : h.hasS <;> cases hW : h.hasW <;> cases hE : h.hasE <;> simp

/-- The redaction bottom edge `y + h` is untouched by handles without s. -/
theorem resizeRedactionRect_bottom_eq (h : Handle) (hs : h.hasS = false)
    (q : Redaction) (dx dy maxW maxH : ℚ) :
    (resizeRedactionRect h q dx dy maxW maxH).y
      + (resizeRedactionRect h q dx dy maxW maxH).h = q.y + q.h := by
  simp only [resizeRedactionRect, hs, Bool.false_eq_true, if_false]
  cases hN : h.hasN <;> cases hW : h.hasW <;> cases hE : h.hasE <;> simp

/-- The redaction left edge is untouched by handles without w. -/
theorem resizeRedactionRect_left_eq (h : Handle) (hw : h.hasW = false)
    (q : Redaction) (dx dy maxW maxH : ℚ) :
    (resizeRedactionRect h q dx dy maxW maxH).x = q.x := by
  simp only [resizeRedactionRect, hw, Bool.false_eq_true, if_false]
  cases hN : h.hasN <;> cases hS : h.hasS <;> cases hE : h.hasE <;> simp

/-- The redaction right edge `x + w` is untouched by handles without e. -/
theorem resizeRedactionRect_right_eq (h : Handle) (he : h.hasE = false)
    (q : Redaction) (dx dy maxW maxH : ℚ) :
    (resizeRedactionRect h q dx dy maxW maxH).x
      + (resizeRedactionRect h q dx dy maxW maxH).w = q.x + q.w := by
  simp only [resizeRedactionRect, he, Bool.false_eq_true, if_false]
  cases hN : h.hasN <;> cases hS : h.hasS <;> cases hW : h.hasW <;> simp

/-- C2: for every rectangle (crop box inside image bounds, or redaction box)
and every resize step via any single handle, every edge not named by that
handle's compass letters is unchanged by the resize. -/
theorem C2_resize_moves_only_named_edges (h : Handle) (r : CropBox)
    (q : Redaction) (dx dy maxW maxH : ℚ) (hin : r.inBounds maxW maxH) :
    ((h.hasN = false → (resizeCropRect h r dx dy maxW maxH).top = r.top) ∧
     (h.hasS = false →
       (resizeCropRect h r dx dy maxW maxH).bottom = r.bottom) ∧
     (h.hasW = false → (resizeCropRect h r dx dy maxW maxH).left = r.left) ∧
     (h.hasE = false →
       (resizeCropRect h r dx dy maxW maxH).right = r.right)) ∧
    ((h.hasN = false → (resizeRedactionRect h q dx dy maxW maxH).y = q.y) ∧
     (h.hasS = false → (resizeRedactionRect h q dx dy maxW maxH).y
        + (resizeRedactionRect h q dx dy maxW maxH).h = q.y + q.h) ∧
     (h.hasW = false → (resizeRedactionRect h q dx dy maxW maxH).x = q.x) ∧
     (h.hasE = false → (resizeRedactionRect h q dx dy maxW maxH).x
        + (resizeRedactionRect h q dx dy maxW maxH).w = q.x + q.w)) := by
  obtain ⟨hL, hR, hT, hB⟩ := hin
  exact ⟨⟨fun hn => resizeCropRect_top_eq h hn r dx dy maxW maxH hT,
          fun hs => resizeCropRect_bottom_eq h hs r dx dy maxW maxH hB,
          fun hw => resizeCropRect_left_eq h hw r dx dy maxW maxH hL,
          fun he => resizeCropRect_right_eq h he r dx dy maxW maxH hR⟩,
         ⟨fun hn => resizeRedactionRect_top_eq h hn q dx dy maxW maxH,
          fun hs => resizeRedactionRect_bottom_eq h hs q dx dy maxW maxH,
          fun hw => resizeRedactionRect_left_eq h hw q dx dy maxW maxH,
          fun he => resizeRedactionRect_right_eq h he q dx dy maxW maxH⟩⟩

/-- Witness for `C2_resize_moves_only_named_edges` at a concrete input. -/
theorem C2_resize_moves_only_named_edges_witness :
    (resizeCropRect .n ⟨0, 0, 20, 20⟩ 1 2 20 20).bottom = 20 :=
  (C2_resize_moves_only_named_edges .n ⟨0, 0, 20, 20⟩ ⟨0, 0, 10, 10⟩
    1 2 20 20 (by norm_num [CropBox.inBounds])).1.2.1 (by decide)

/-! ### Move: explicit form and invertibility -/

/-- When the clamp does not bind, a crop move is a pure translation. -/
theorem moveCropRect_of_unconstrained (r : CropBox) (dx dy maxW maxH : ℚ)
    (h1 : 0 ≤ r.left + dx) (h2 : r.left + dx ≤ maxW - (r.right - r.left))
    (h3 : 0 ≤ r.top + dy) (h4 : r.top + dy ≤ maxH - (r.bottom - r.top)) :
    moveCropRect r dx dy maxW maxH =
      ⟨r.top + dy, r.left + dx, r.bottom + dy, r.right + dx⟩ := by
  unfold moveCropRect
  ext
  · show max 0 (min (r.top + dy) (maxH - (r.bottom - r.top))) = r.top + dy
    rw [min_eq_left h4, max_eq_right h3]
  · show max 0 (min (r.left + dx) (maxW - (r.right - r.left))) = r.left + dx
    rw [min_eq_left h2, max_eq_right h1]
  · show max 0 (min (r.top + dy) (maxH - (r.bottom - r.top)))
        + (r.bottom - r.top) = r.bottom + dy
    rw [min_eq_left h4, max_eq_right h3]; ring
  · show max 0 (min (r.left + dx) (maxW - (r.right - r.left)))
        + (r.right - r.left) = r.right + dx
    rw [min_eq_left h2, max_eq_right h1]; ring

/-- When the clamp does not bind, a redaction move is a pure translation. -/
theorem moveRedactionRect_of_unconstrained (q : Redaction)
    (dx dy maxW maxH : ℚ)
    (h1 : 0 ≤ q.x + dx) (h2 : q.x + dx ≤ maxW - q.w)
    (h3 : 0 ≤ q.y + dy) (h4 : q.y + dy ≤ maxH - q.h) :
    moveRedactionRect q dx dy maxW maxH =
      ⟨q.x + dx, q.y + dy, q.w, q.h⟩ := by
  unfold moveRedactionRect
  ext
  · show max 0 (min (q.x + dx) (maxW - q.w)) = q.x + dx
    rw [min_eq_left h2, max_eq_right h1]
  · show max 0 (min (q.y + dy) (maxH - q.h)) = q.y + dy
    rw [min_eq_left h4, max_eq_right h3]
  · rfl
  · rfl

/-- C3: a move step adds the display delta scaled to image space, clamped
to keep the box inside the image, and never changes width or height; moving
by display delta `(dxD, dyD)` and then `(-dxD, -dyD)` restores the original
rectangle exactly when neither step is constrained by the bounds clamp. -/
theorem C3_move_invertible (r : CropBox) (q : Redaction)
    (dxD dyD sX sY maxW maxH : ℚ)
    (hL1 : 0 ≤ r.left + dxD * sX)
    (hL2 : r.left + dxD * sX ≤ maxW - (r.right - r.left))
    (hT1 : 0 ≤ r.top + dyD * sY)
    (hT2 : r.top + dyD * sY ≤ maxH - (r.bottom - r.top))
    (hL0 : 0 ≤ r.left) (hL3 : r.left ≤ maxW - (r.right - r.left))
    (hT0 : 0 ≤ r.top) (hT3 : r.top ≤ maxH - (r.bottom - r.top))
    (hx1 : 0 ≤ q.x + dxD * sX) (hx2 : q.x + dxD * sX ≤ maxW - q.w)
    (hy1 : 0 ≤ q.y + dyD * sY) (hy2 : q.y + dyD * sY ≤ maxH - q.h)
    (hx0 : 0 ≤ q.x) (hx3 : q.x ≤ maxW - q.w)
    (hy0 : 0 ≤ q.y) (hy3 : q.y ≤ maxH - q.h) :
    (∀ dx dy : ℚ,
      (moveCropRect r dx dy maxW maxH).right
        - (moveCropRect r dx dy maxW maxH).left = r.right - r.left ∧
      (moveCropRect r dx dy maxW maxH).bottom
        - (moveCropRect r dx dy maxW maxH).top = r.bottom - r.top ∧
      (moveRedactionRect q dx dy maxW maxH).w = q.w ∧
      (moveRedactionRect q dx dy maxW maxH).h = q.h) ∧
    moveCropRect (moveCropRect r (dxD * sX) (dyD * sY) maxW maxH)
      (-dxD * sX) (-dyD * sY) maxW maxH = r ∧
    moveRedactionRect (moveRedactionRect q (dxD * sX) (dyD * sY) maxW maxH)
      (-dxD * sX) (-dyD * sY) maxW maxH = q := by
  obtain ⟨rt, rl, rb, rr⟩ := r
  obtain ⟨qx, qy, qw, qh⟩ := q
  simp only at hL1 hL2 hT1 hT2 hL0 hL3 hT0 hT3 hx1 hx2 hy1 hy2 hx0 hx3 hy0 hy3
  refine ⟨fun dx dy => ⟨?_, ?_, rfl, rfl⟩, ?_, ?_⟩
  · show (max 0 (min (rl + dx) (maxW - (rr - rl))) + (rr - rl))
      - max 0 (min (rl + dx) (maxW - (rr - rl))) = rr - rl
    ring
  · show (max 0 (min (rt + dy) (maxH - (rb - rt))) + (rb - rt))
      - max 0 (min (rt + dy) (maxH - (rb - rt))) = rb - rt
    ring
  · have s1 : moveCropRect ⟨rt, rl, rb, rr⟩ (dxD * sX) (dyD * sY)
        maxW maxH
        = ⟨rt + dyD * sY, rl + dxD * sX, rb + dyD * sY, rr + dxD * sX⟩ :=
      moveCropRect_of_unconstrained _ _ _ _ _ hL1 hL2 hT1 hT2
    have s2 : moveCropRect
        ⟨rt + dyD * sY, rl + dxD * sX, rb + dyD * sY, rr + dxD * sX⟩
        (-dxD * sX) (-dyD * sY) maxW maxH
        = ⟨rt + dyD * sY + -dyD * sY, rl + dxD * sX + -dxD * sX,
           rb + dyD * sY + -dyD * sY, rr + dxD * sX + -dxD * sX⟩ :=
      moveCropRect_of_unconstrained _ _ _ _ _
        (by show (0 : ℚ) ≤ rl + dxD * sX + -dxD * sX; ring_nf; linarith)
        (by show rl + dxD * sX + -dxD * sX
              ≤ maxW - (rr + dxD * sX - (rl + dxD * sX))
            ring_nf; linarith)
        (by show (0 : ℚ) ≤ rt + dyD * sY + -dyD * sY; ring_nf; linarith)
        (by show rt + dyD * sY + -dyD * sY
              ≤ maxH - (rb + dyD * sY - (rt + dyD * sY))
            ring_nf; linarith)
    rw [s1, s2]
    simp only [CropBox.mk.injEq]
    refine ⟨by ring, by ring, by ring, by ring⟩
  · have s1 : moveRedactionRect ⟨qx, qy, qw, qh⟩ (dxD * sX) (dyD * sY)
        maxW maxH = ⟨qx + dxD * sX, qy + dyD * sY, qw, qh⟩ :=
      moveRedactionRect_of_unconstrained _ _ _ _ _ hx1 hx2 hy1 hy2
    have s2 : moveRedactionRect ⟨qx + dxD * sX, qy + dyD * sY, qw, qh⟩
        (-dxD * sX) (-dyD * sY) maxW maxH
        = ⟨qx + dxD * sX + -dxD * sX, qy + dyD * sY + -dyD * sY, qw, qh⟩ :=
      moveRedactionRect_of_unconstrained _ _ _ _ _
        (by show (0 : ℚ) ≤ qx + dxD * sX + -dxD * sX; ring_nf; linarith)
        (by show qx + dxD * sX + -dxD * sX ≤ maxW - qw; ring_nf; linarith)
        (by show (0 : ℚ) ≤ qy + dyD * sY + -dyD * sY; ring_nf; linarith)
        (by show qy + dyD * sY + -dyD * sY ≤ maxH - qh; ring_nf; linarith)
    rw [s1, s2]
    simp only [Redaction.mk.injEq]
    refine ⟨by ring, by ring, by ring, by ring⟩

/-- Witness for `C3_move_invertible` at a concrete input. -/
theorem C3_move_invertible_witness :
    moveCropRect (moveCropRect ⟨0, 0, 10, 10⟩ (1 * 1) (1 * 1) 100 100)
      (-1 * 1) (-1 * 1) 100 100 = ⟨0, 0, 10, 10⟩ :=
  (C3_move_invertible ⟨0, 0, 10, 10⟩ ⟨0, 0, 10, 10⟩ 1 1 1 1 100 100
    (by norm_num) (by norm_num) (by norm_num) (by norm_num)
    (by norm_num) (by norm_num) (by norm_num) (by norm_num)
    (by norm_num) (by norm_num) (by norm_num) (by norm_num)
    (by norm_num) (by norm_num) (by norm_num) (by norm_num)).2.1

/-! ### Compositor size and draw-redaction commit -/

/-- C5: for every valid crop rectangle inside the source image and every
redaction list, the compositor's output buffer has width exactly
`right - left` and height exactly `bottom - top`, whatever the redactions. -/
theorem C5_composite_size (imgW imgH : ℚ) (R : CropBox) (L : List Redaction)
    (hv1 : R.left < R.right) (hv2 : R.top < R.bottom)
    (hin : R.inBounds imgW imgH) :
    (applyAdjustments imgW imgH (some R) L).width = R.right - R.left ∧
    (applyAdjustments imgW imgH (some R) L).height = R.bottom - R.top :=
  ⟨rfl, rfl⟩

/-- Witness for `C5_composite_size` at a concrete input. -/
theorem C5_composite_size_witness :
    (applyAdjustments 100 100 (some ⟨0, 0, 50, 40⟩)
      [⟨1, 2, 3, 4⟩]).width = 40 - 0 :=
  (C5_composite_size 100 100 ⟨0, 0, 50, 40⟩ [⟨1, 2, 3, 4⟩]
    (by norm_num) (by norm_num) (by norm_num [CropBox.inBounds])).1

/-- C6: a drawn redaction drag is appended to the redaction list exactly
when its absolute display-space width and height both exceed 5px; a
sub-threshold drag leaves the redaction list unchanged. -/
theorem C6_draw_commit_iff (startX startY endX endY rectLeft rectTop
    sX sY : ℚ) (reds : List Redaction) :
    (5 < |endX - startX| ∧ 5 < |endY - startY| →
      commitDrawnRedaction startX startY endX endY rectLeft rectTop sX sY reds
        = reds ++ [⟨(min startX endX - rectLeft) * sX,
                    (min startY endY - rectTop) * sY,
                    |endX - startX| * sX, |endY - startY| * sY⟩]) ∧
    (¬ (5 < |endX - startX| ∧ 5 < |endY - startY|) →
      commitDrawnRedaction startX startY endX endY rectLeft rectTop sX sY reds
        = reds) := by
  constructor
  · intro hc
    simp only [commitDrawnRedaction]
    rw [if_pos hc]
  · intro hc
    simp only [commitDrawnRedaction]
    rw [if_neg hc]

/-- Witness for `C6_draw_commit_iff` at a concrete input. -/
theorem C6_draw_commit_iff_witness :
    commitDrawnRedaction 0 0 10 10 0 0 1 1 [] =
      [⟨(min 0 10 - 0) * 1, (min 0 10 - 0) * 1,
        |10 - 0| * 1, |10 - 0| * 1⟩] :=
  (C6_draw_commit_iff 0 0 10 10 0 0 1 1 []).1
    (by constructor <;> · rw [abs_of_nonneg (by norm_num)]; norm_num)

/-! ### Chunking geometry -/

/-- Closed form of the chunk height for 2 chunks. -/
theorem chunkHeightFor_two (H : ℚ) : chunkHeightFor H 2 = H * (20 / 37) := by
  unfold chunkHeightFor
  push_cast
  norm_num
  ring

/-- Closed form of the chunk height for 3 chunks. -/
theorem chunkHeightFor_three (H : ℚ) : chunkHeightFor H 3 = H * (10 / 27) := by
  unfold chunkHeightFor
  push_cast
  norm_num
  ring

/-- Explicit chunk list in the 2-chunk regime. -/
theorem verticalChunks_len2 (H a : ℚ) (hH : 0 < H) (ha : ¬(16 / 5 < a)) :
    verticalChunks H a
      = [(0, chunkHeightFor H 2),
         (chunkHeightFor H 2 * (17 / 20), chunkHeightFor H 2)] := by
  unfold verticalChunks chunkCount
  rw [if_neg ha]
  simp only [List.range_succ, List.range_zero, List.map_append, List.map_cons,
    List.map_nil, List.nil_append, List.cons_append, chunkHeightFor_two]
  norm_num
  constructor
  · nlinarith
  · linarith

/-- Explicit chunk list in the 3-chunk regime. -/
theorem verticalChunks_len3 (H a : ℚ) (hH : 0 < H) (ha : 16 / 5 < a) :
    verticalChunks H a
      = [(0, chunkHeightFor H 3),
         (chunkHeightFor H 3 * (17 / 20), chunkHeightFor H 3),
         (chunkHeightFor H 3 * (17 / 20) * 2, chunkHeightFor H 3)] := by
  unfold verticalChunks chunkCount
  rw [if_pos ha]
  simp only [List.range_succ, List.range_zero, List.map_append, List.map_cons,
    List.map_nil, List.nil_append, List.cons_append, chunkHeightFor_three]
  norm_num
  refine ⟨?_, ?_, ?_, ?_⟩ <;> nlinarith

/-- The two chunks of the 2-chunk regime exactly cover `[0, H]`. -/
theorem cover_two (H y : ℚ) (hH : 0 < H) :
    (0 ≤ y ∧ y ≤ H) ↔ ∃ i : ℕ, i < 2 ∧
      (([(0, chunkHeightFor H 2),
          (chunkHeightFor H 2 * (17 / 20), chunkHeightFor H 2)].getD
            i (0, 0)).1 ≤ y ∧
       y ≤ ([(0, chunkHeightFor H 2),
          (chunkHeightFor H 2 * (17 / 20), chunkHeightFor H 2)].getD
            i (0, 0)).1
          + ([(0, chunkHeightFor H 2),
          (chunkHeightFor H 2 * (17 / 20), chunkHeightFor H 2)].getD
            i (0, 0)).2) := by
  rw [chunkHeightFor_two]
  constructor
  · rintro ⟨h0, h1⟩
    by_cases hyc : y ≤ H * (20 / 37)
    · exact ⟨0, by norm_num, by simp; linarith, by simp; linarith⟩
    · refine ⟨1, by norm_num, by simp; nlinarith, by simp; nlinarith⟩
  · rintro ⟨i, hi, h1, h2⟩
    interval_cases i <;> simp at h1 h2 <;> constructor <;> nlinarith

/-- The three chunks of the 3-chunk regime exactly cover `[0, H]`. -/
theorem cover_three (H y : ℚ) (hH : 0 < H) :
    (0 ≤ y ∧ y ≤ H) ↔ ∃ i : ℕ, i < 3 ∧
      (([(0, chunkHeightFor H 3),
          (chunkHeightFor H 3 * (17 / 20), chunkHeightFor H 3),
          (chunkHeightFor H 3 * (17 / 20) * 2, chunkHeightFor H 3)].getD
            i (0, 0)).1 ≤ y ∧
       y ≤ ([(0, chunkHeightFor H 3),
          (chunkHeightFor H 3 * (17 / 20), chunkHeightFor H 3),
          (chunkHeightFor H 3 * (17 / 20) * 2, chunkHeightFor H 3)].getD
            i (0, 0)).1
          + ([(0, chunkHeightFor H 3),
          (chunkHeightFor H 3 * (17 / 20), chunkHeightFor H 3),
          (chunkHeightFor H 3 * (17 / 20) * 2, chunkHeightFor H 3)].getD
            i (0, 0)).2) := by
  rw [chunkHeightFor_three]
  constructor
  · rintro ⟨h0, h1⟩
    by_cases hy0 : y ≤ H * (10 / 27)
    · exact ⟨0, by norm_num, by simp; linarith, by simp; linarith⟩
    by_cases hy1 : y ≤ H * (10 / 27) * (17 / 20) + H * (10 / 27)
    · refine ⟨1, by norm_num, by simp; nlinarith, by simp; nlinarith⟩
    · refine ⟨2, by norm_num, by simp; nlinarith, by simp; nlinarith⟩
  · rintro ⟨i, hi, h1, h2⟩
    interval_cases i <;> simp at h1 h2 <;> constructor <;> nlinarith

/-- C4: the chunker emits 1 chunk for ratio ≤ 1.8, 2 for ratio in
(1.8, 3.2], 3 for ratio > 3.2; in the multi-chunk regimes every chunk has
height `H / (numChunks - (numChunks-1)·0.15)`, consecutive chunks overlap
by 15% of that chunk height, and the chunks exactly cover `[0, H]`. -/
theorem C4_chunk_geometry (W H : ℚ) (hW : 0 < W) (hH : 0 < H) :
    (H / W ≤ 9 / 5 → chunksFor W H = [(0, H)]) ∧
    (9 / 5 < H / W → H / W ≤ 16 / 5 → (chunksFor W H).length = 2) ∧
    (16 / 5 < H / W → (chunksFor W H).length = 3) ∧
    (9 / 5 < H / W →
      (∀ c ∈ chunksFor W H, c.2 = chunkHeightFor H (chunksFor W H).length) ∧
      (∀ i : ℕ, i + 1 < (chunksFor W H).length →
        ((chunksFor W H).getD i (0, 0)).1
            + chunkHeightFor H (chunksFor W H).length
            - ((chunksFor W H).getD (i + 1) (0, 0)).1
          = 3 / 20 * chunkHeightFor H (chunksFor W H).length) ∧
      (∀ y : ℚ, (0 ≤ y ∧ y ≤ H) ↔ ∃ i : ℕ, i < (chunksFor W H).length ∧
        ((chunksFor W H).getD i (0, 0)).1 ≤ y ∧
        y ≤ ((chunksFor W H).getD i (0, 0)).1
            + ((chunksFor W H).getD i (0, 0)).2)) := by
  by_cases h18 : 9 / 5 < H / W
  · have hne : chunksFor W H = verticalChunks H (H / W) := by
      unfold chunksFor; rw [if_pos h18]
    by_cases h32 : 16 / 5 < H / W
    · have hlist := verticalChunks_len3 H (H / W) hH h32
      rw [hne, hlist]
      refine ⟨fun hc => absurd hc (by linarith),
        fun _ hc => absurd h32 (not_lt.mpr hc),
        fun _ => rfl, fun _ => ⟨?_, ?_, ?_⟩⟩
      · intro c hc
        simp only [List.mem_cons, List.not_mem_nil, or_false] at hc
        rcases hc with rfl | rfl | rfl <;> rfl
      · intro i hi
        simp only [List.length_cons, List.length_nil] at hi
        have hib : i < 2 := by omega
        interval_cases i <;> simp <;> ring
      · intro y
        simpa using cover_three H y hH
    · have hlist := verticalChunks_len2 H (H / W) hH h32
      rw [hne, hlist]
      refine ⟨fun hc => absurd hc (by linarith), fun _ _ => rfl,
        fun hc => absurd hc h32, fun _ => ⟨?_, ?_, ?_⟩⟩
      · intro c hc
        simp only [List.mem_cons, List.not_mem_nil, or_false] at hc
        rcases hc with rfl | rfl <;> rfl
      · intro i hi
        simp only [List.length_cons, List.length_nil] at hi
        have hib : i < 1 := by omega
        interval_cases i <;> simp <;> ring
      · intro y
        simpa using cover_two H y hH
  · have hne : chunksFor W H = [(0, H)] := by
      unfold chunksFor; rw [if_neg h18]
    refine ⟨fun _ => hne, fun hc _ => absurd hc h18, fun hc => absurd hc (by
      intro h32; exact h18 (by linarith)), fun hc => absurd hc h18⟩

/-- Witness for `C4_chunk_geometry` at a concrete input (ratio 2 gives two
chunks). -/
theorem C4_chunk_geometry_witness : (chunksFor 1 2).length = 2 :=
  (C4_chunk_geometry 1 2 (by norm_num) (by norm_num)).2.1
    (by norm_num) (by norm_num)

/-! ### Bounds detector -/

/-- An ascending scan followed by a descending scan stopped at its result
always yields an ordered pair within `[0, n]`. -/
theorem scan_pair (p : ℕ → Bool) (n : ℕ) :
    scanLow p n ≤ scanHigh p n (scanLow p n) ∧
    scanHigh p n (scanLow p n) ≤ n := by
  cases hfind : (List.range n).find? p with
  | none =>
    have ha : scanLow p n = 0 := by unfold scanLow; rw [hfind]; rfl
    have hnone : ((List.range (n - scanLow p n)).map
        (fun k => n - 1 - k)).find? p = none := by
      rw [List.find?_eq_none]
      intro x hx
      obtain ⟨k, hk, rfl⟩ := List.mem_map.mp hx
      have hk2 : k < n := by rw [ha] at hk; simpa using List.mem_range.mp hk
      exact List.find?_eq_none.mp hfind _ (List.mem_range.mpr (by omega))
    have hb : scanHigh p n (scanLow p n) = n := by
      unfold scanHigh; rw [hnone]; rfl
    rw [ha] at hb
    rw [ha, hb]
    exact ⟨Nat.zero_le n, le_refl n⟩
  | some t =>
    have hp : p t = true := List.find?_some hfind
    have htn : t < n := List.mem_range.mp (List.mem_of_find?_eq_some hfind)
    have ha : scanLow p n = t := by unfold scanLow; rw [hfind]; rfl
    have hmem : t ∈ (List.range (n - t)).map (fun k => n - 1 - k) :=
      List.mem_map.mpr ⟨n - 1 - t, List.mem_range.mpr (by omega), by omega⟩
    cases hfind2 : ((List.range (n - t)).map
        (fun k => n - 1 - k)).find? p with
    | none =>
      exact absurd hp (List.find?_eq_none.mp hfind2 _ hmem)
    | some b =>
      have hbmem := List.mem_of_find?_eq_some hfind2
      obtain ⟨k, hk, hbk⟩ := List.mem_map.mp hbmem
      have hkn : k < n - t := List.mem_range.mp hk
      have hb : scanHigh p n (scanLow p n) = b := by
        unfold scanHigh; rw [ha, hfind2]; rfl
      rw [ha] at hb
      rw [ha, hb]
      omega

/-- C10: for every input pixel buffer, the detector's result satisfies
`0 ≤ top ≤ bottom ≤ height` and `0 ≤ left ≤ right ≤ width` (the lower
bounds are definitional for naturals): the bottom scan stops at the
already-found top row and the right scan stops at the already-found left
column. -/
theorem C10_bounds_ordered (img : ImageData) :
    (findContentBounds img).top ≤ (findContentBounds img).bottom ∧
    (findContentBounds img).bottom ≤ img.height ∧
    (findContentBounds img).left ≤ (findContentBounds img).right ∧
    (findContentBounds img).right ≤ img.width := by
  have hv := scan_pair (rowHasContent img) img.height
  have hh := scan_pair
    (colHasContent img (scanLow (rowHasContent img) img.height)
      (scanHigh (rowHasContent img) img.height
        (scanLow (rowHasContent img) img.height)))
    img.width
  exact ⟨hv.1, hv.2, hh.1, hh.2⟩

/-- C7: on a buffer whose every pixel has all R/G/B channels at least 235
(a fully-white buffer), the detector returns the full-frame rectangle. -/
theorem C7_white_full_frame (img : ImageData)
    (hlen : img.data.length = 4 * img.width * img.height)
    (hwhite : ∀ x y, x < img.width → y < img.height →
      235 ≤ img.data.getD ((y * img.width + x) * 4) 255 ∧
      235 ≤ img.data.getD ((y * img.width + x) * 4 + 1) 255 ∧
      235 ≤ img.data.getD ((y * img.width + x) * 4 + 2) 255) :
    findContentBounds img = ⟨0, img.height, 0, img.width⟩ := by
  have hfalse : ∀ x y, x < img.width → isContent img x y = false := by
    intro x y hx
    unfold isContent
    by_cases hy : y < img.height
    · obtain ⟨h1, h2, h3⟩ := hwhite x y hx hy
      simp only [Bool.or_eq_false_iff, decide_eq_false_iff_not, not_lt]
      exact ⟨⟨h1, h2⟩, h3⟩
    · have hge : img.height * img.width * 4 ≤ (y * img.width + x) * 4 := by
        have h1 : img.height * img.width ≤ y * img.width :=
          Nat.mul_le_mul_right _ (Nat.le_of_not_lt hy)
        have h2 : y * img.width ≤ y * img.width + x := Nat.le_add_right _ _
        exact Nat.mul_le_mul_right 4 (le_trans h1 h2)
      have hgl : img.data.length ≤ (y * img.width + x) * 4 := by
        rw [hlen]
        calc 4 * img.width * img.height
            = img.height * img.width * 4 := by ring
          _ ≤ (y * img.width + x) * 4 := hge
      rw [List.getD_eq_default _ _ (by omega),
        List.getD_eq_default _ _ (by omega),
        List.getD_eq_default _ _ (by omega)]
      simp
  have hrow : ∀ y, rowHasContent img y = false := by
    intro y
    unfold rowHasContent
    rw [List.any_eq_false]
    intro x hx
    simp [hfalse x y (List.mem_range.mp hx)]
  have hcol : ∀ t b x, x < img.width → colHasContent img t b x = false := by
    intro t b x hx
    unfold colHasContent
    rw [List.any_eq_false]
    intro k _
    simp [hfalse x (t + k) hx]
  have hrnone : ∀ l : List ℕ, l.find? (rowHasContent img) = none := by
    intro l
    rw [List.find?_eq_none]
    intro y _
    simp [hrow y]
  have htop : scanLow (rowHasContent img) img.height = 0 := by
    unfold scanLow; rw [hrnone]; rfl
  have hbot : scanHigh (rowHasContent img) img.height 0 = img.height := by
    unfold scanHigh; rw [hrnone]; rfl
  have hcnone : ∀ t b,
      ((List.range img.width).find? (colHasContent img t b)) = none := by
    intro t b
    rw [List.find?_eq_none]
    intro x hx
    simp [hcol t b x (List.mem_range.mp hx)]
  have hleft : ∀ t b, scanLow (colHasContent img t b) img.width = 0 := by
    intro t b
    unfold scanLow; rw [hcnone]; rfl
  have hright : ∀ t b,
      scanHigh (colHasContent img t b) img.width 0 = img.width := by
    intro t b
    unfold scanHigh
    have hmap : ((List.range (img.width - 0)).map
        (fun k => img.width - 1 - k)).find? (colHasContent img t b)
          = none := by
      rw [List.find?_eq_none]
      intro x hx
      obtain ⟨k, hk, rfl⟩ := List.mem_map.mp hx
      by_cases hw : img.width = 0
      · simp [hw] at hk
      · have hklt : img.width - 1 - k < img.width := by omega
        simp [hcol t b _ hklt]
    rw [hmap]; rfl
  simp only [findContentBounds]
  rw [htop, hbot, hleft, hright]

/-- Witness for `C7_white_full_frame` at a concrete 2×2 all-white buffer. -/
theorem C7_white_full_frame_witness :
    findContentBounds ⟨2, 2, List.replicate 16 255⟩ = ⟨0, 2, 0, 2⟩ :=
  C7_white_full_frame ⟨2, 2, List.replicate 16 255⟩ (by decide)
    (by intro x y hx hy
        interval_cases x <;> interval_cases y <;> decide)

/-! ### Drag accumulation versus drag-start snapshot -/

/-- C8: starting a drag at pointer `(0,0)` on the crop box
`{top 0, left 0, bottom 10, right 10}` of a 100×100 image at display scale
1, the `mousemove` events `(-50, 0)` then `(0, 0)` (drag left against the
bounds clamp, then back to the start) leave the `modal.js` per-event fold at
`left = 50`, whereas moving the drag-start snapshot once by the total
pointer delta (zero) leaves `left = 0`: the incremental listener does not
implement the snapshot semantics. -/
theorem C8_accumulation_diverges_from_snapshot :
    (dragMoveEvents 1 1 100 100 ⟨0, 0, ⟨0, 0, 10, 10⟩⟩
        [(-50, 0), (0, 0)]).rect = ⟨0, 50, 10, 60⟩ ∧
    specMoveFromSnapshot 1 1 100 100 ⟨0, 0, 10, 10⟩ (0, 0) (0, 0)
      = ⟨0, 0, 10, 10⟩ ∧
    (dragMoveEvents 1 1 100 100 ⟨0, 0, ⟨0, 0, 10, 10⟩⟩
        [(-50, 0), (0, 0)]).rect
      ≠ specMoveFromSnapshot 1 1 100 100 ⟨0, 0, 10, 10⟩ (0, 0) (0, 0) := by
  have h1 : (dragMoveEvents 1 1 100 100 ⟨0, 0, ⟨0, 0, 10, 10⟩⟩
      [(-50, 0), (0, 0)]).rect = ⟨0, 50, 10, 60⟩ := by
    simp only [dragMoveEvents, List.foldl_cons, List.foldl_nil,
      mousemoveStep, moveCropRect]
    norm_num [min_def, max_def]
  have h2 : specMoveFromSnapshot 1 1 100 100 ⟨0, 0, 10, 10⟩ (0, 0) (0, 0)
      = ⟨0, 0, 10, 10⟩ := by
    simp only [specMoveFromSnapshot, moveCropRect]
    norm_num [min_def, max_def]
  refine ⟨h1, h2, ?_⟩
  rw [h1, h2]
  intro hcontra
  have h50 : (50 : ℚ) = 0 := congrArg CropBox.left hcontra
  norm_num at h50

/-! ### Date normalization -/

/-- Separator replacement leaves digits alone. -/
theorem digit_sepToDash (c : Char) (h : c.isDigit = true) :
    sepToDash c = c := by
  unfold sepToDash
  rw [if_neg]
  rintro (rfl | rfl | rfl | rfl | rfl) <;> simp [Char.isDigit] at h

/-- Separator replacement leaves digit strings alone. -/
theorem map_sepToDash_digits (s : List Char)
    (h : s.all Char.isDigit = true) : s.map sepToDash = s := by
  induction s with
  | nil => rfl
  | cons c cs ih =>
    rw [List.all_cons, Bool.and_eq_true] at h
    simp [digit_sepToDash c h.1, ih h.2]

/-- A digit is not a dash. -/
theorem digit_ne_dash (c : Char) (h : c.isDigit = true) : c ≠ '-' := by
  rintro rfl
  simp [Char.isDigit] at h

/-- A digit is not whitespace. -/
theorem digit_not_space (c : Char) (h : c.isDigit = true) :
    isJsSpace c = false := by
  unfold isJsSpace
  cases hsp : (c == ' ' || c == '\t' || c == '\n' || c == '\r') with
  | false => rfl
  | true =>
    simp only [Bool.or_eq_true, beq_iff_eq] at hsp
    rcases hsp with ((rfl | rfl) | rfl) | rfl <;> simp [Char.isDigit] at h

/-- Dropping leading whitespace from a digit string is the identity. -/
theorem dropWhile_digits (s : List Char) (h : s.all Char.isDigit = true) :
    s.dropWhile isJsSpace = s := by
  cases s with
  | nil => rfl
  | cons c cs =>
    rw [List.all_cons, Bool.and_eq_true] at h
    rw [List.dropWhile_cons, digit_not_space c h.1]
    simp

/-- Trimming a digit string is the identity. -/
theorem jsTrim_digits (s : List Char) (h : s.all Char.isDigit = true) :
    jsTrim s = s := by
  unfold jsTrim
  rw [dropWhile_digits s h, dropWhile_digits s.reverse (by
    rw [List.all_eq_true] at h ⊢
    intro c hc
    exact h c (List.mem_reverse.mp hc)), List.reverse_reverse]

/-- Unfolding equation for the dash splitter. -/
theorem splitOnDash_cons (c : Char) (cs : List Char) :
    splitOnDash (c :: cs) = match splitOnDash cs with
      | [] => []
      | g :: gs => if c = '-' then [] :: g :: gs else (c :: g) :: gs := rfl

/-- The dash splitter never returns the empty list of parts. -/
theorem splitOnDash_ne_nil (s : List Char) : splitOnDash s ≠ [] := by
  induction s with
  | nil => simp [splitOnDash]
  | cons c cs ih =>
    rw [splitOnDash_cons]
    cases hs : splitOnDash cs with
    | nil => exact absurd hs ih
    | cons g gs =>
      by_cases hc : c = '-' <;> simp [hc]

/-- Splitting a dash-free string yields that single part. -/
theorem splitOnDash_no_dash (s : List Char) (h : ¬ '-' ∈ s) :
    splitOnDash s = [s] := by
  induction s with
  | nil => rfl
  | cons c cs ih =>
    have hc : ¬ c = '-' := by intro hh; exact h (hh ▸ List.mem_cons_self c cs)
    have hcs : ¬ '-' ∈ cs := fun hh => h (List.mem_cons_of_mem c hh)
    rw [splitOnDash_cons, ih hcs]
    simp [hc]

/-- Splitting peels off a dash-free prefix before a dash. -/
theorem splitOnDash_append_cons (a rest : List Char) (h : ¬ '-' ∈ a) :
    splitOnDash (a ++ '-' :: rest) = a :: splitOnDash rest := by
  induction a with
  | nil =>
    simp only [List.nil_append]
    rw [splitOnDash_cons]
    cases hs : splitOnDash rest with
    | nil => exact absurd hs (splitOnDash_ne_nil rest)
    | cons g gs => simp [hs]
  | cons c cs ih =>
    have hc : ¬ c = '-' := by intro hh; exact h (hh ▸ List.mem_cons_self c cs)
    have hcs : ¬ '-' ∈ cs := fun hh => h (List.mem_cons_of_mem c hh)
    simp only [List.cons_append]
    rw [splitOnDash_cons, ih hcs]
    simp [hc]

/-- Zero-padding a 1- or 2-character string yields exactly 2 characters. -/
theorem padStart2_length (s : List Char) (h1 : 1 ≤ s.length)
    (h2 : s.length ≤ 2) : (padStart2 s).length = 2 := by
  unfold padStart2
  by_cases hlt : s.length < 2
  · rw [if_pos hlt]
    simp
    omega
  · rw [if_neg hlt]
    omega

/-- Zero-padding yields a 2-character string exactly when the input has at
most 2 characters. -/
theorem padStart2_len_two_iff (s : List Char) (h1 : 1 ≤ s.length) :
    (padStart2 s).length = 2 ↔ s.length ≤ 2 := by
  unfold padStart2
  by_cases hlt : s.length < 2
  · rw [if_pos hlt]
    simp
    omega
  · rw [if_neg hlt]
    omega

/-- Zero-padding preserves digit-only strings. -/
theorem padStart2_all_digits (s : List Char)
    (h : s.all Char.isDigit = true) :
    (padStart2 s).all Char.isDigit = true := by
  unfold padStart2
  by_cases hlt : s.length < 2
  · rw [if_pos hlt, List.all_append, Bool.and_eq_true]
    refine ⟨?_, h⟩
    rw [List.all_eq_true]
    intro c hc
    rw [List.eq_of_mem_replicate hc]
    rfl
  · rw [if_neg hlt]; exact h

/-- A run of zero characters has numeric value zero. -/
theorem natOfDigits_replicate_zero (k : ℕ) :
    natOfDigits (List.replicate k '0') = 0 := by
  induction k with
  | zero => rfl
  | succ n ih =>
    rw [List.replicate_succ]
    unfold natOfDigits at ih ⊢
    simp only [List.foldl_cons]
    convert ih using 2

/-- Zero-padding does not change the numeric value. -/
theorem natOfDigits_padStart2 (s : List Char) :
    natOfDigits (padStart2 s) = natOfDigits s := by
  unfold padStart2
  by_cases hlt : s.length < 2
  · rw [if_pos hlt]
    unfold natOfDigits
    rw [List.foldl_append]
    have h0 : (List.replicate (2 - s.length) '0').foldl
        (fun a c => 10 * a + (c.toNat - 48)) 0 = 0 :=
      natOfDigits_replicate_zero (2 - s.length)
    rw [h0]
  · rw [if_neg hlt]

/-- Digit strings contain no dash. -/
theorem no_dash_of_digits (s : List Char) (h : s.all Char.isDigit = true) :
    ¬ '-' ∈ s := by
  intro hmem
  rw [List.all_eq_true] at h
  have := h '-' hmem
  simp [Char.isDigit] at this

/-- On a dashed string of three digit parts whose first has 4 characters,
the validation reduces to the 2-character month/day shape checks plus the
calendar-range conditions. -/
theorem dateParseValid_dashed (yr m2 d2 : List Char)
    (hy : yr.all Char.isDigit = true) (hm : m2.all Char.isDigit = true)
    (hd : d2.all Char.isDigit = true) (hylen : yr.length = 4) :
    dateParseValid (yr ++ '-' :: m2 ++ '-' :: d2)
      = decide (m2.length = 2 ∧ d2.length = 2 ∧
          1 ≤ natOfDigits m2 ∧ natOfDigits m2 ≤ 12 ∧
          1 ≤ natOfDigits d2 ∧
          natOfDigits d2 ≤ daysInMonth (natOfDigits yr) (natOfDigits m2)) := by
  have hsplit : splitOnDash (yr ++ '-' :: m2 ++ '-' :: d2)
      = [yr, m2, d2] := by
    simp only [List.append_assoc, List.cons_append]
    rw [splitOnDash_append_cons yr _ (no_dash_of_digits yr hy),
      splitOnDash_append_cons m2 _ (no_dash_of_digits m2 hm),
      splitOnDash_no_dash d2 (no_dash_of_digits d2 hd)]
  unfold dateParseValid
  rw [hsplit]
  simp only [hylen, beq_self_eq_true, Bool.true_and, List.all_append,
    hy, hm, hd, Bool.and_self, Bool.and_true]
  by_cases hl1 : m2.length = 2
  · by_cases hl2 : d2.length = 2
    · simp only [hl1, hl2, beq_self_eq_true, Bool.true_and]
      by_cases h1 : 1 ≤ natOfDigits m2
      · by_cases h2 : natOfDigits m2 ≤ 12
        · by_cases h3 : 1 ≤ natOfDigits d2
          · by_cases h4 : natOfDigits d2
                ≤ daysInMonth (natOfDigits yr) (natOfDigits m2)
            · simp [h1, h2, h3, h4]
            · simp [h1, h2, h3, h4]
          · simp [h1, h2, h3]
        · simp [h1, h2]
      · simp [h1]
    · simp [hl1, hl2]
  · simp [hl1]

/-- A nonempty digit string ends in a digit. -/
theorem getLast_digits (d : List Char) (hne : d ≠ [])
    (hd : d.all Char.isDigit = true) :
    ∃ c, d.getLast? = some c ∧ c.isDigit = true := by
  induction d with
  | nil => exact absurd rfl hne
  | cons a as ih =>
    cases as with
    | nil =>
      rw [List.all_cons, Bool.and_eq_true] at hd
      exact ⟨a, rfl, hd.1⟩
    | cons b bs =>
      rw [List.all_cons, Bool.and_eq_true] at hd
      obtain ⟨c, hc1, hc2⟩ := ih (by simp) hd.2
      exact ⟨c, by rw [List.getLast?_cons_cons]; exact hc1, hc2⟩

/-- Nonempty digit parts survive the whitespace filter. -/
theorem keep_part (p : List Char) (hdig : p.all Char.isDigit = true)
    (hlen : 1 ≤ p.length) : decide (jsTrim p ≠ []) = true := by
  rw [jsTrim_digits p hdig, decide_eq_true_eq]
  exact List.length_pos.mp (by omega)

/-- A dashed digit-part string keeps its last digit, so the trailing-dash
strip leaves it alone. -/
theorem dropTrailingDash_dashed (y m d : List Char) (hdne : d ≠ [])
    (hd : d.all Char.isDigit = true) :
    dropTrailingDash (y ++ '-' :: m ++ '-' :: d)
      = y ++ '-' :: m ++ '-' :: d := by
  obtain ⟨c, hc1, hc2⟩ := getLast_digits d hdne hd
  have hlast : (y ++ '-' :: m ++ '-' :: d).getLast? = some c := by
    rw [List.getLast?_append_cons, show ('-' :: d) = ['-'] ++ d from rfl,
      List.getLast?_append_of_ne_nil _ hdne, hc1]
  unfold dropTrailingDash
  simp only [hlast]
  rw [if_neg (by simp only [Option.some.injEq]; exact digit_ne_dash c hc2)]

/-- The cleaning pipeline on `y s m s d` for any separator that maps to a
dash: three digit parts come out, in their original order. -/
theorem sep_parts (sep : Char) (hsep : sepToDash sep = '-')
    (y m d : List Char)
    (hy : y.all Char.isDigit = true) (hm : m.all Char.isDigit = true)
    (hd : d.all Char.isDigit = true)
    (hy1 : 1 ≤ y.length) (hm1 : 1 ≤ m.length) (hd1 : 1 ≤ d.length) :
    (splitOnDash (dropTrailingDash
        ((y ++ sep :: m ++ sep :: d).map sepToDash))).filter
      (fun p => decide (jsTrim p ≠ [])) = [y, m, d] := by
  have hdne : d ≠ [] := List.length_pos.mp (by omega)
  have hclean : (y ++ sep :: m ++ sep :: d).map sepToDash
      = y ++ '-' :: m ++ '-' :: d := by
    simp only [List.map_append, List.map_cons]
    rw [map_sepToDash_digits y hy, map_sepToDash_digits m hm,
      map_sepToDash_digits d hd, hsep]
  have hsplit2 : splitOnDash (y ++ '-' :: m ++ '-' :: d) = [y, m, d] := by
    simp only [List.append_assoc, List.cons_append]
    rw [splitOnDash_append_cons y _ (no_dash_of_digits y hy),
      splitOnDash_append_cons m _ (no_dash_of_digits m hm),
      splitOnDash_no_dash d (no_dash_of_digits d hd)]
  rw [hclean, dropTrailingDash_dashed y m d hdne hd, hsplit2]
  simp only [List.filter_cons, keep_part y hy hy1,
    keep_part m hm hm1, keep_part d hd hd1, if_true, List.filter_nil]

/-- The cleaning pipeline on a four-part slash date: all four digit parts
come out, in their original order. -/
theorem sep_parts4 (y m d e : List Char)
    (hy : y.all Char.isDigit = true) (hm : m.all Char.isDigit = true)
    (hd : d.all Char.isDigit = true) (he : e.all Char.isDigit = true)
    (hy1 : 1 ≤ y.length) (hm1 : 1 ≤ m.length) (hd1 : 1 ≤ d.length)
    (he1 : 1 ≤ e.length) :
    (splitOnDash (dropTrailingDash
        ((y ++ '/' :: m ++ '/' :: d ++ '/' :: e).map sepToDash))).filter
      (fun p => decide (jsTrim p ≠ [])) = [y, m, d, e] := by
  have hene : e ≠ [] := List.length_pos.mp (by omega)
  have hclean : (y ++ '/' :: m ++ '/' :: d ++ '/' :: e).map sepToDash
      = y ++ '-' :: m ++ '-' :: d ++ '-' :: e := by
    simp only [List.map_append, List.map_cons]
    rw [map_sepToDash_digits y hy, map_sepToDash_digits m hm,
      map_sepToDash_digits d hd, map_sepToDash_digits e he,
      (by decide : sepToDash ('/') = '-')]
  have hdrop : dropTrailingDash (y ++ '-' :: m ++ '-' :: d ++ '-' :: e)
      = y ++ '-' :: m ++ '-' :: d ++ '-' :: e := by
    obtain ⟨c, hc1, hc2⟩ := getLast_digits e hene he
    have hlast : (y ++ '-' :: m ++ '-' :: d ++ '-' :: e).getLast?
        = some c := by
      rw [List.getLast?_append_cons, show ('-' :: e) = ['-'] ++ e from rfl,
        List.getLast?_append_of_ne_nil _ hene, hc1]
    unfold dropTrailingDash
    simp only [hlast]
    rw [if_neg (by simp only [Option.some.injEq]; exact digit_ne_dash c hc2)]
  have hsplit4 : splitOnDash (y ++ '-' :: m ++ '-' :: d ++ '-' :: e)
      = [y, m, d, e] := by
    simp only [List.append_assoc, List.cons_append]
    rw [splitOnDash_append_cons y _ (no_dash_of_digits y hy),
      splitOnDash_append_cons m _ (no_dash_of_digits m hm),
      splitOnDash_append_cons d _ (no_dash_of_digits d hd),
      splitOnDash_no_dash e (no_dash_of_digits e he)]
  rw [hclean, hdrop, hsplit4]
  simp only [List.filter_cons, keep_part y hy hy1, keep_part m hm hm1,
    keep_part d hd hd1, keep_part e he he1, if_true, List.filter_nil]

/-- Core evaluation of `normalizeDate`: whenever the cleaning pipeline
produces digit parts `y m d …`, the FIRST part is used as the year
(prefixed with `20` when it has two characters, kept when it has four),
parts beyond the third are ignored, month and day are the second and third
parts zero-padded, and the result is empty unless the month and day have at
most two digits and pass the calendar check. -/
theorem normalizeDate_first_three (L : List Char) (hL : ¬ (L = []))
    (y m d : List Char) (tail : List (List Char))
    (hparts : (splitOnDash (dropTrailingDash (L.map sepToDash))).filter
      (fun p => decide (jsTrim p ≠ [])) = y :: m :: d :: tail)
    (hy : y.all Char.isDigit = true) (hm : m.all Char.isDigit = true)
    (hd : d.all Char.isDigit = true)
    (hylen : y.length = 2 ∨ y.length = 4)
    (hm1 : 1 ≤ m.length) (hd1 : 1 ≤ d.length) :
    normalizeDate L
      = if m.length ≤ 2 ∧ d.length ≤ 2 ∧
           1 ≤ natOfDigits m ∧ natOfDigits m ≤ 12 ∧
           1 ≤ natOfDigits d ∧
           natOfDigits d ≤ daysInMonth
             (natOfDigits (if y.length = 2 then '2' :: '0' :: y else y))
             (natOfDigits m)
        then (if y.length = 2 then '2' :: '0' :: y else y)
             ++ '-' :: padStart2 m ++ '-' :: padStart2 d
        else [] := by
  simp only [normalizeDate]
  rw [if_neg hL, hparts]
  rw [if_pos (show (3 : ℕ) ≤ (y :: m :: d :: tail).length by
    simp only [List.length_cons]; omega)]
  simp only [List.getD_cons_zero, List.getD_cons_succ]
  rcases hylen with h2 | h4
  · rw [if_pos h2]
    have hyr4 : ('2' :: '0' :: y).length = 4 := by
      simp only [List.length_cons]; omega
    have hyrdig : ('2' :: '0' :: y).all Char.isDigit = true := by
      rw [List.all_cons, List.all_cons, hy]
      decide
    simp only [dateParseValid_dashed ('2' :: '0' :: y) (padStart2 m)
      (padStart2 d) hyrdig (padStart2_all_digits m hm)
      (padStart2_all_digits d hd) hyr4]
    simp only [natOfDigits_padStart2, padStart2_len_two_iff m hm1,
      padStart2_len_two_iff d hd1]
    simp [decide_eq_true_eq]
  · rw [if_neg (show ¬ (y.length = 2) by omega)]
    simp only [dateParseValid_dashed y (padStart2 m) (padStart2 d) hy
      (padStart2_all_digits m hm) (padStart2_all_digits d hd) h4]
    simp only [natOfDigits_padStart2, padStart2_len_two_iff m hm1,
      padStart2_len_two_iff d hd1]
    simp [decide_eq_true_eq]

/-- A CJK-marked date normalizes like the corresponding slash date: the
markers become dashes and the trailing dash (from the day marker) is
stripped. -/
theorem normalizeDate_cjk (y m d : List Char)
    (hy : y.all Char.isDigit = true) (hm : m.all Char.isDigit = true)
    (hd : d.all Char.isDigit = true) (hd1 : 1 ≤ d.length) :
    normalizeDate (y ++ '年' :: m ++ '月' :: d ++ ['日'])
      = normalizeDate (y ++ '/' :: m ++ '/' :: d) := by
  have hdne : d ≠ [] := List.length_pos.mp (by omega)
  have hne1 : ¬ (y ++ '年' :: m ++ '月' :: d ++ ['日'] = []) := by
    intro h
    have := congrArg List.length h
    simp only [List.length_append, List.length_cons,
      List.length_nil] at this
    omega
  have hne2 : ¬ (y ++ '/' :: m ++ '/' :: d = []) := by
    intro h
    have := congrArg List.length h
    simp only [List.length_append, List.length_cons,
      List.length_nil] at this
    omega
  have hmap1 : (y ++ '年' :: m ++ '月' :: d ++ ['日']).map sepToDash
      = (y ++ '-' :: m ++ '-' :: d) ++ ['-'] := by
    simp only [List.map_append, List.map_cons, List.map_nil]
    rw [map_sepToDash_digits y hy, map_sepToDash_digits m hm,
      map_sepToDash_digits d hd,
      (by decide : sepToDash '年' = '-'),
      (by decide : sepToDash '月' = '-'),
      (by decide : sepToDash '日' = '-')]
  have hmap2 : (y ++ '/' :: m ++ '/' :: d).map sepToDash
      = y ++ '-' :: m ++ '-' :: d := by
    simp only [List.map_append, List.map_cons]
    rw [map_sepToDash_digits y hy, map_sepToDash_digits m hm,
      map_sepToDash_digits d hd, (by decide : sepToDash ('/') = '-')]
  have hdrop1 : dropTrailingDash ((y ++ '-' :: m ++ '-' :: d) ++ ['-'])
      = y ++ '-' :: m ++ '-' :: d := by
    have hlast : ((y ++ '-' :: m ++ '-' :: d) ++ ['-']).getLast?
        = some '-' := by
      rw [List.getLast?_append_cons]
      rfl
    unfold dropTrailingDash
    simp only [hlast]
    rw [if_pos trivial]
    exact List.dropLast_concat
  have hdrop2 : dropTrailingDash (y ++ '-' :: m ++ '-' :: d)
      = y ++ '-' :: m ++ '-' :: d := dropTrailingDash_dashed y m d hdne hd
  simp only [normalizeDate]
  rw [if_neg hne1, if_neg hne2, hmap1, hmap2, hdrop1, hdrop2]

/-- C9 (counterexample): on `"01-02-2026"` (three parts, exactly one
4-digit token, not in first position) the source keeps the FIRST part as
year, builds `"2001-02-2026"`, fails validation and returns the empty
string — whereas the claimed year-locating normalization yields
`"2026-01-02"`. -/
theorem C9_counterexample :
    normalizeDate ("01-02-2026".data) = [] ∧
    specNormalizeDate ("01-02-2026".data) = "2026-01-02".data ∧
    "2026-01-02".data ≠ ([] : List Char) := by
  refine ⟨?_, ?_, ?_⟩ <;> decide

/-- C9 (amended): for digit parts whose first is a 2- or 4-character year
token, date normalization uses the FIRST part as the year of the canonical
output — it does not locate a 4-digit token elsewhere among the parts —
prefixing 2-character first parts with `20`; the second and third parts
become month and day zero-padded to two digits (whatever their length, even
a 4-digit token there stays in place and merely fails validation); any
parts beyond the third are ignored; the empty string is returned whenever
the reconstructed date fails calendar validation.  This holds for slash
and dot separators alike, and a CJK-marked date normalizes exactly like
its slash form. -/
theorem C9_first_part_is_year (y m d : List Char)
    (hy : y.all Char.isDigit = true) (hm : m.all Char.isDigit = true)
    (hd : d.all Char.isDigit = true)
    (hylen : y.length = 2 ∨ y.length = 4)
    (hm1 : 1 ≤ m.length) (hd1 : 1 ≤ d.length) :
    (normalizeDate (y ++ '/' :: m ++ '/' :: d)
      = if m.length ≤ 2 ∧ d.length ≤ 2 ∧
           1 ≤ natOfDigits m ∧ natOfDigits m ≤ 12 ∧
           1 ≤ natOfDigits d ∧
           natOfDigits d ≤ daysInMonth
             (natOfDigits (if y.length = 2 then '2' :: '0' :: y else y))
             (natOfDigits m)
        then (if y.length = 2 then '2' :: '0' :: y else y)
             ++ '-' :: padStart2 m ++ '-' :: padStart2 d
        else []) ∧
    normalizeDate (y ++ '.' :: m ++ '.' :: d)
      = normalizeDate (y ++ '/' :: m ++ '/' :: d) ∧
    normalizeDate (y ++ '年' :: m ++ '月' :: d ++ ['日'])
      = normalizeDate (y ++ '/' :: m ++ '/' :: d) ∧
    (∀ e : List Char, e.all Char.isDigit = true → 1 ≤ e.length →
      normalizeDate (y ++ '/' :: m ++ '/' :: d ++ '/' :: e)
        = normalizeDate (y ++ '/' :: m ++ '/' :: d)) := by
  have hy1 : 1 ≤ y.length := by rcases hylen with h | h <;> omega
  have hneS : ¬ (y ++ '/' :: m ++ '/' :: d = []) := by
    intro h
    have := congrArg List.length h
    simp only [List.length_append, List.length_cons,
      List.length_nil] at this
    omega
  have hneD : ¬ (y ++ '.' :: m ++ '.' :: d = []) := by
    intro h
    have := congrArg List.length h
    simp only [List.length_append, List.length_cons,
      List.length_nil] at this
    omega
  have ha := normalizeDate_first_three _ hneS y m d []
    (sep_parts '/' (by decide) y m d hy hm hd hy1 hm1 hd1)
    hy hm hd hylen hm1 hd1
  have hb := normalizeDate_first_three _ hneD y m d []
    (sep_parts '.' (by decide) y m d hy hm hd hy1 hm1 hd1)
    hy hm hd hylen hm1 hd1
  refine ⟨ha, by rw [hb, ha], normalizeDate_cjk y m d hy hm hd hd1, ?_⟩
  intro e he he1
  have hneQ : ¬ (y ++ '/' :: m ++ '/' :: d ++ '/' :: e = []) := by
    intro h
    have := congrArg List.length h
    simp only [List.length_append, List.length_cons,
      List.length_nil] at this
    omega
  have hq := normalizeDate_first_three _ hneQ y m d [e]
    (sep_parts4 y m d e hy hm hd he hy1 hm1 hd1 he1)
    hy hm hd hylen hm1 hd1
  rw [hq, ha]

/-- Witness for `C9_first_part_is_year` at a concrete input: the spec's
own `"26.1.1"` example, a dot-separated date whose 2-character first part
is expanded with the `20` prefix. -/
theorem C9_first_part_is_year_witness :
    normalizeDate ("26.1.1".data) = "2026-01-01".data := by
  have h := (C9_first_part_is_year "26".data "1".data "1".data
    (by decide) (by decide) (by decide) (Or.inl (by decide))
    (by decide) (by decide)).2.1
  rw [show ("26.1.1".data : List Char)
      = "26".data ++ '.' :: "1".data ++ '.' :: "1".data by decide]
  rw [h]
  decide

end AutoReceipt
